import Mathlib

/-!
Verification of the cocotb bus-functional-model library (mem.py, axis.py,
axilite.py, crc.py, tb.py) through a shallow embedding in Lean 4.

Python integers become `Nat`; the hex-string formatting used by the memory
store is modelled at nibble granularity (`"{0:0{1}x}".format` produces a
zero-padded big-endian nibble list, `str.decode` pairs nibbles into bytes);
assertion failures and `TypeError`s become `Option`/`Except` failures.
-/

set_option maxRecDepth 10000

namespace Cocotb

/-- Number of hexadecimal digits of `n` (for `n > 0`), computed with an
explicit fuel argument so that the recursion is structural. -/
def hexLenAux : Nat → Nat → Nat
  | 0, _ => 0
  | _ + 1, 0 => 0
  | fuel + 1, n + 1 => hexLenAux fuel ((n + 1) / 16) + 1

/-- Length of the Python string `'%x' % n` (one digit for `n = 0`). -/
def pyHexLen (n : Nat) : Nat := if n = 0 then 1 else hexLenAux n n

/-- Big-endian nibble list of `v`, exactly `len` nibbles (the value is
represented exactly whenever `v < 16 ^ len`). -/
def nibsOfNat (v : Nat) : Nat → List Nat
  | 0 => []
  | n + 1 => (v / 16 ^ n % 16) :: nibsOfNat v n

/-- The nibble list produced by Python `"{0:0{1}x}".format(v, width)`:
zero-padded to `width` but never truncated below the natural hex length. -/
def pyFormat (v width : Nat) : List Nat := nibsOfNat v (max width (pyHexLen v))

/-- `[s[i:i+2] for i in range(0, len(s), 2)]`: split a list into chunks of
two (a trailing odd element stays as a singleton chunk). -/
def chunkPairs {α : Type} : List α → List (List α)
  | [] => []
  | [a] => [[a]]
  | a :: b :: t => [a, b] :: chunkPairs t

/-- Python `str.decode("hex")`: pair up nibbles into bytes; an odd-length
input raises (`none`). -/
def hexDecode : List Nat → Option (List Nat)
  | [] => some []
  | [_] => none
  | a :: b :: t => (hexDecode t).map (fun r => (16 * a + b) :: r)

/-- `int(nibble-string, 16)`. -/
def natOfNibs (l : List Nat) : Nat := l.foldl (fun acc d => 16 * acc + d) 0

/-- `int(byte-string.encode("hex"), 16)`: big-endian byte-list value. -/
def natOfBytes (l : List Nat) : Nat := l.foldl (fun acc b => 256 * acc + b) 0

/-- Big-endian byte list of `v`, exactly `len` bytes. -/
def bytesOfNat (v : Nat) : Nat → List Nat
  | 0 => []
  | n + 1 => (v / 256 ^ n % 256) :: bytesOfNat v n

/-- `tb.swp_byte_order`: format `data` as hex, pad to an even length and to
`2*bytelen` digits, decode to bytes, reverse the byte string, re-parse. -/
def swp_byte_order (data bytelen : Nat) : Nat :=
  let nibs := nibsOfNat data (max (2 * bytelen) (2 * ((pyHexLen data + 1) / 2)))
  natOfBytes (((hexDecode nibs).getD []).reverse)

/-- The memory store of `mem.py`: a byte array plus a base offset. -/
structure Mem where
  data : List Nat
  offset : Nat
  deriving DecidableEq

/-- `Mem.__init__`: a zero-filled store. -/
def Mem.init (size : Nat) (offset : Nat := 0) : Mem :=
  ⟨List.replicate size 0, offset⟩

/-- `Mem.size`. -/
def Mem.size (m : Mem) : Nat := m.data.length

/-- All stored cells are genuine bytes. -/
def Mem.bytesOK (m : Mem) : Prop := ∀ b ∈ m.data, b < 256

/-- `Mem.write`: bounds-asserted splice of the hex-decoded big-endian
encoding of `data` into the store.  `none` models an assertion failure or a
decode error. -/
def Mem.write (m : Mem) (addr data size : Nat) : Option Mem :=
  if m.offset ≤ addr then
    let a := addr - m.offset
    if a + size ≤ m.size then
      match hexDecode (pyFormat data (2 * size)) with
      | some bs => some ⟨m.data.take a ++ bs ++ m.data.drop (a + size), m.offset⟩
      | none => none
    else none
  else none

/-- `Mem.write_reverse_byte_order`: as `write`, but the hex string is
re-grouped into byte pairs and the pairs are reversed before decoding. -/
def Mem.write_reverse_byte_order (m : Mem) (addr data size : Nat) : Option Mem :=
  if m.offset ≤ addr then
    let a := addr - m.offset
    if a + size ≤ m.size then
      match hexDecode ((chunkPairs (pyFormat data (2 * size))).reverse.flatten) with
      | some bs => some ⟨m.data.take a ++ bs ++ m.data.drop (a + size), m.offset⟩
      | none => none
    else none
  else none

/-- `Mem.read`: bounds-asserted big-endian read of `size` bytes. -/
def Mem.read (m : Mem) (addr size : Nat) : Option Nat :=
  if m.offset ≤ addr then
    let a := addr - m.offset
    if a + size ≤ m.size then
      some (natOfBytes ((m.data.drop a).take size))
    else none
  else none

/-- `Mem.read_reverse_byte_order`: read, format as a `2*size`-digit hex
string, reverse the byte pairs, re-parse. -/
def Mem.read_reverse_byte_order (m : Mem) (addr size : Nat) : Option Nat :=
  (m.read addr size).map fun v =>
    natOfNibs ((chunkPairs (pyFormat v (2 * size))).reverse.flatten)

/-- The data/last pairs emitted by the read-burst loop of `Mem.main`
(`for i in range(arlen+1): RDATA <= read_reverse_byte_order(araddr +
i*pow(2,arsize), pow(2,arsize)); RLAST <= (i == arlen)`), with the
cycle-level handshake abstracted away. -/
def Mem.readBurst (m : Mem) (araddr arlen arsize : Nat) : List (Option Nat × Bool) :=
  (List.range (arlen + 1)).map fun i =>
    (m.read_reverse_byte_order (araddr + i * 2 ^ arsize) (2 ^ arsize), decide (i = arlen))

/-! ### Arithmetic facts about the codec -/

theorem hexLenAux_zero (fuel : Nat) : hexLenAux fuel 0 = 0 := by
  cases fuel <;> rfl

theorem hexLenAux_lt (fuel n : Nat) (h : n ≤ fuel) : n < 16 ^ hexLenAux fuel n := by
  induction fuel generalizing n with
  | zero =>
    interval_cases n
    simp [hexLenAux]
  | succ f ih =>
    rcases n with _ | n
    · simp [hexLenAux_zero]
    · rw [hexLenAux]
      have hd : (n + 1) / 16 ≤ f := by omega
      have h2 := ih ((n + 1) / 16) hd
      calc n + 1 < 16 * ((n + 1) / 16 + 1) := by omega
        _ ≤ 16 * 16 ^ hexLenAux f ((n + 1) / 16) := Nat.mul_le_mul_left 16 h2
        _ = 16 ^ (hexLenAux f ((n + 1) / 16) + 1) := by ring

theorem hexLenAux_lower (fuel n : Nat) (h : n ≤ fuel) (hn : n ≠ 0) :
    16 ^ (hexLenAux fuel n - 1) ≤ n := by
  induction fuel generalizing n with
  | zero => omega
  | succ f ih =>
    rcases n with _ | n
    · omega
    · rw [hexLenAux]
      rcases Nat.eq_zero_or_pos ((n + 1) / 16) with hz | hpos
      · simp [hz, hexLenAux_zero]
      · have hd : (n + 1) / 16 ≤ f := by omega
        have h2 := ih ((n + 1) / 16) hd (by omega)
        have h1 : 1 ≤ hexLenAux f ((n + 1) / 16) := by
          by_contra hc
          have h0 : hexLenAux f ((n + 1) / 16) = 0 := by omega
          have hlt := hexLenAux_lt f ((n + 1) / 16) hd
          rw [h0, pow_zero] at hlt
          omega
        have hE : 16 ^ (hexLenAux f ((n + 1) / 16) + 1 - 1) =
            16 * 16 ^ (hexLenAux f ((n + 1) / 16) - 1) := by
          rw [Nat.add_sub_cancel]
          conv_lhs => rw [← Nat.sub_add_cancel h1]
          ring
        rw [hE]
        calc 16 * 16 ^ (hexLenAux f ((n + 1) / 16) - 1) ≤ 16 * ((n + 1) / 16) :=
              Nat.mul_le_mul_left 16 h2
          _ ≤ n + 1 := Nat.mul_div_le (n + 1) 16

theorem lt_pow_pyHexLen (n : Nat) : n < 16 ^ pyHexLen n := by
  unfold pyHexLen
  split
  · omega
  · exact hexLenAux_lt n n le_rfl

theorem pyHexLen_pos (n : Nat) : 1 ≤ pyHexLen n := by
  unfold pyHexLen
  split
  · omega
  · have h := hexLenAux_lt n n le_rfl
    by_contra hc
    have h0 : hexLenAux n n = 0 := by omega
    rw [h0, pow_zero] at h
    omega

theorem pyHexLen_le_of_lt_pow {n w : Nat} (hw : 1 ≤ w) (h : n < 16 ^ w) :
    pyHexLen n ≤ w := by
  rcases Nat.eq_zero_or_pos n with rfl | hn
  · simpa [pyHexLen] using hw
  · by_contra hc
    have h1 : w ≤ pyHexLen n - 1 := by omega
    have h2 : 16 ^ (pyHexLen n - 1) ≤ n := by
      have hne : ¬ n = 0 := by omega
      unfold pyHexLen
      rw [if_neg hne]
      have := hexLenAux_lower n n le_rfl hne
      unfold pyHexLen at *
      rw [if_neg hne] at *
      exact this
    have h3 : 16 ^ w ≤ 16 ^ (pyHexLen n - 1) :=
      Nat.pow_le_pow_right (by norm_num) h1
    omega

theorem pyFormat_exact {v w : Nat} (hw : 1 ≤ w) (h : v < 16 ^ w) :
    pyFormat v w = nibsOfNat v w := by
  unfold pyFormat
  rw [Nat.max_eq_left (pyHexLen_le_of_lt_pow hw h)]

@[simp] theorem nibsOfNat_length (v n : Nat) : (nibsOfNat v n).length = n := by
  induction n with
  | zero => rfl
  | succ k ih => simp [nibsOfNat, ih]

@[simp] theorem bytesOfNat_length (v n : Nat) : (bytesOfNat v n).length = n := by
  induction n with
  | zero => rfl
  | succ k ih => simp [bytesOfNat, ih]

theorem pow256_eq (s : Nat) : (256 : Nat) ^ s = 16 ^ (2 * s) := by
  rw [Nat.pow_mul]

theorem hi_lo_eq (w : Nat) : 16 * (w / 16 % 16) + w % 16 = w % 256 := by
  omega

theorem hexDecode_nibsOfNat (v s : Nat) :
    hexDecode (nibsOfNat v (2 * s)) = some (bytesOfNat v s) := by
  induction s with
  | zero => rfl
  | succ k ih =>
    have h2 : 2 * (k + 1) = 2 * k + 1 + 1 := by ring
    rw [h2, nibsOfNat, nibsOfNat, hexDecode, ih]
    simp only [Option.map_some']
    congr 1
    rw [bytesOfNat]
    congr 1
    have hdd : v / 16 ^ (2 * k + 1) = v / 16 ^ (2 * k) / 16 := by
      rw [Nat.div_div_eq_div_mul, ← Nat.pow_succ]
    rw [hdd, pow256_eq]
    exact hi_lo_eq (v / 16 ^ (2 * k))

theorem natOfBytes_foldl (l : List Nat) (acc : Nat) :
    l.foldl (fun a b => 256 * a + b) acc = acc * 256 ^ l.length + natOfBytes l := by
  induction l generalizing acc with
  | nil => simp [natOfBytes]
  | cons x t ih =>
    simp only [List.foldl_cons, List.length_cons, natOfBytes]
    rw [ih (256 * acc + x), ih (256 * 0 + x)]
    ring

theorem natOfNibs_foldl (l : List Nat) (acc : Nat) :
    l.foldl (fun a d => 16 * a + d) acc = acc * 16 ^ l.length + natOfNibs l := by
  induction l generalizing acc with
  | nil => simp [natOfNibs]
  | cons x t ih =>
    simp only [List.foldl_cons, List.length_cons, natOfNibs]
    rw [ih (16 * acc + x), ih (16 * 0 + x)]
    ring

theorem natOfBytes_cons (x : Nat) (t : List Nat) :
    natOfBytes (x :: t) = x * 256 ^ t.length + natOfBytes t := by
  simpa [natOfBytes] using natOfBytes_foldl t (256 * 0 + x)

theorem natOfNibs_cons (x : Nat) (t : List Nat) :
    natOfNibs (x :: t) = x * 16 ^ t.length + natOfNibs t := by
  simpa [natOfNibs] using natOfNibs_foldl t (16 * 0 + x)

theorem mod_mul_pow_eq (v P : Nat) (hP : 0 < P) :
    v % (256 * P) = v / P % 256 * P + v % P := by
  have h1 : v = 256 * P * (v / P / 256) + (v / P % 256 * P + v % P) := by
    calc v = P * (v / P) + v % P := (Nat.div_add_mod v P).symm
      _ = P * (256 * (v / P / 256) + v / P % 256) + v % P := by
          rw [Nat.div_add_mod (v / P) 256]
      _ = 256 * P * (v / P / 256) + (v / P % 256 * P + v % P) := by ring
  have hb : v / P % 256 * P + v % P < 256 * P := by
    have h2 : v / P % 256 ≤ 255 := by omega
    have h3 : v % P < P := Nat.mod_lt _ hP
    calc v / P % 256 * P + v % P ≤ 255 * P + v % P :=
          Nat.add_le_add_right (Nat.mul_le_mul_right P h2) _
      _ < 255 * P + P := by omega
      _ = 256 * P := by ring
  conv_lhs => rw [h1]
  rw [Nat.mul_add_mod, Nat.mod_eq_of_lt hb]

theorem natOfBytes_bytesOfNat (v s : Nat) :
    natOfBytes (bytesOfNat v s) = v % 256 ^ s := by
  induction s with
  | zero => simp [bytesOfNat, natOfBytes, Nat.mod_one]
  | succ k ih =>
    rw [bytesOfNat, natOfBytes_cons, bytesOfNat_length, ih, Nat.pow_succ']
    exact (mod_mul_pow_eq v (256 ^ k) (by positivity)).symm

theorem natOfBytes_bytesOfNat_of_lt {v s : Nat} (h : v < 256 ^ s) :
    natOfBytes (bytesOfNat v s) = v := by
  rw [natOfBytes_bytesOfNat, Nat.mod_eq_of_lt h]

theorem bytesOfNat_mem_lt {v s b : Nat} (h : b ∈ bytesOfNat v s) : b < 256 := by
  induction s with
  | zero => simp [bytesOfNat] at h
  | succ k ih =>
    rw [bytesOfNat] at h
    rcases List.mem_cons.mp h with h1 | h2
    · subst h1
      exact Nat.mod_lt _ (by norm_num)
    · exact ih h2

theorem natOfBytes_lt {l : List Nat} (h : ∀ b ∈ l, b < 256) :
    natOfBytes l < 256 ^ l.length := by
  induction l with
  | nil => simp [natOfBytes]
  | cons x t ih =>
    rw [natOfBytes_cons, List.length_cons, Nat.pow_succ']
    have hx : x < 256 := h x (List.mem_cons_self x t)
    have ht : natOfBytes t < 256 ^ t.length := ih fun b hb => h b (List.mem_cons_of_mem x hb)
    calc x * 256 ^ t.length + natOfBytes t
        ≤ 255 * 256 ^ t.length + natOfBytes t := by
          have : x ≤ 255 := by omega
          exact Nat.add_le_add_right (Nat.mul_le_mul_right _ this) _
      _ < 255 * 256 ^ t.length + 256 ^ t.length := by omega
      _ = 256 * 256 ^ t.length := by ring

theorem bytesOfNat_add_mul_pow {x k s n : Nat} (h : n ≤ s) :
    bytesOfNat (x + k * 256 ^ s) n = bytesOfNat x n := by
  induction n with
  | zero => rfl
  | succ j ih =>
    rw [bytesOfNat, bytesOfNat, ih (by omega)]
    congr 1
    have hs : 256 ^ s = 256 ^ j * 256 ^ (s - j) := by
      rw [← Nat.pow_add]
      congr 1
      omega
    have hdiv : (x + k * 256 ^ s) / 256 ^ j = x / 256 ^ j + k * 256 ^ (s - j) := by
      rw [hs, ← Nat.mul_assoc, Nat.mul_comm k (256 ^ j), Nat.mul_assoc]
      exact Nat.add_mul_div_left x _ (Nat.pos_pow_of_pos j (by norm_num))
    rw [hdiv]
    have hsj : 1 ≤ s - j := by omega
    have : 256 ^ (s - j) = 256 * 256 ^ (s - j - 1) := by
      conv_lhs => rw [← Nat.sub_add_cancel hsj]
      rw [Nat.pow_succ]
      ring
    rw [this]
    have : x / 256 ^ j + k * (256 * 256 ^ (s - j - 1)) =
        x / 256 ^ j + (k * 256 ^ (s - j - 1)) * 256 := by ring
    rw [this, Nat.add_mul_mod_self_right]

theorem bytesOfNat_natOfBytes {l : List Nat} (h : ∀ b ∈ l, b < 256) :
    bytesOfNat (natOfBytes l) l.length = l := by
  induction l with
  | nil => rfl
  | cons x t ih =>
    have hx : x < 256 := h x (List.mem_cons_self x t)
    have ht : ∀ b ∈ t, b < 256 := fun b hb => h b (List.mem_cons_of_mem x hb)
    have htlt : natOfBytes t < 256 ^ t.length := natOfBytes_lt ht
    rw [List.length_cons, bytesOfNat, natOfBytes_cons]
    congr 1
    · rw [Nat.add_comm]
      rw [Nat.add_mul_div_right _ _ (by positivity : (0:Nat) < 256 ^ t.length)]
      rw [Nat.div_eq_of_lt htlt]
      simp [Nat.mod_eq_of_lt hx]
    · rw [Nat.add_comm (x * 256 ^ t.length) (natOfBytes t)]
      rw [bytesOfNat_add_mul_pow (le_refl t.length), ih ht]

/-- A byte split into its two hex nibbles. -/
def nibPair (b : Nat) : List Nat := [b / 16, b % 16]

theorem nibsOfNat_eq_flatten (v s : Nat) :
    nibsOfNat v (2 * s) = ((bytesOfNat v s).map nibPair).flatten := by
  induction s with
  | zero => rfl
  | succ k ih =>
    have h2 : 2 * (k + 1) = 2 * k + 1 + 1 := by ring
    rw [h2, nibsOfNat, nibsOfNat, ih, bytesOfNat]
    rw [List.map_cons, List.flatten_cons]
    show _ :: _ :: _ = nibPair (v / 256 ^ k % 256) ++ _
    unfold nibPair
    simp only [List.cons_append, List.nil_append]
    have hdd : v / 16 ^ (2 * k + 1) = v / 16 ^ (2 * k) / 16 := by
      rw [Nat.div_div_eq_div_mul, ← Nat.pow_succ]
    have hw : v / 256 ^ k = v / 16 ^ (2 * k) := by rw [pow256_eq]
    congr 1
    · rw [hdd, hw]
      have := hi_lo_eq (v / 16 ^ (2 * k))
      omega
    · congr 1
      rw [hw]
      omega

theorem chunkPairs_flatten_map_nibPair (l : List Nat) :
    chunkPairs ((l.map nibPair).flatten) = l.map nibPair := by
  induction l with
  | nil => rfl
  | cons b t ih =>
    rw [List.map_cons, List.flatten_cons]
    show chunkPairs (b / 16 :: b % 16 :: (t.map nibPair).flatten) = _
    rw [chunkPairs, ih]
    rfl

theorem hexDecode_flatten_map_nibPair {l : List Nat} (h : ∀ b ∈ l, b < 256) :
    hexDecode ((l.map nibPair).flatten) = some l := by
  induction l with
  | nil => rfl
  | cons b t ih =>
    rw [List.map_cons, List.flatten_cons]
    show hexDecode (b / 16 :: b % 16 :: (t.map nibPair).flatten) = _
    rw [hexDecode, ih (fun x hx => h x (List.mem_cons_of_mem b hx))]
    simp only [Option.map_some']
    congr 2
    omega

theorem natOfNibs_flatten_aux (l : List Nat) (acc : Nat) (h : ∀ b ∈ l, b < 256) :
    ((l.map nibPair).flatten).foldl (fun a d => 16 * a + d) acc =
      l.foldl (fun a b => 256 * a + b) acc := by
  induction l generalizing acc with
  | nil => rfl
  | cons b t ih =>
    rw [List.map_cons, List.flatten_cons]
    show (b / 16 :: b % 16 :: (t.map nibPair).flatten).foldl _ acc = _
    rw [List.foldl_cons, List.foldl_cons, List.foldl_cons,
      ih _ (fun x hx => h x (List.mem_cons_of_mem b hx))]
    congr 1
    have hb : b < 256 := h b (List.mem_cons_self b t)
    omega

theorem natOfNibs_flatten_map_nibPair {l : List Nat} (h : ∀ b ∈ l, b < 256) :
    natOfNibs ((l.map nibPair).flatten) = natOfBytes l := by
  unfold natOfNibs natOfBytes
  exact natOfNibs_flatten_aux l 0 h

theorem flatten_reverse_map_nibPair (l : List Nat) :
    ((l.map nibPair).reverse).flatten = ((l.reverse).map nibPair).flatten := by
  rw [List.map_reverse]

/-! ### Mem-level lemmas -/

theorem pyFormat_bytes {data size : Nat} (hs : 1 ≤ size) (hd : data < 256 ^ size) :
    pyFormat data (2 * size) = ((bytesOfNat data size).map nibPair).flatten := by
  rw [pyFormat_exact (by omega) (by rw [← pow256_eq]; exact hd)]
  exact nibsOfNat_eq_flatten data size

theorem Mem.write_eq {m : Mem} {addr data size : Nat}
    (h1 : m.offset ≤ addr) (h2 : addr - m.offset + size ≤ m.size)
    (hs : 1 ≤ size) (hd : data < 256 ^ size) :
    m.write addr data size =
      some ⟨m.data.take (addr - m.offset) ++ bytesOfNat data size ++
            m.data.drop (addr - m.offset + size), m.offset⟩ := by
  unfold Mem.write
  rw [if_pos h1, if_pos h2, pyFormat_bytes hs hd,
    hexDecode_flatten_map_nibPair (fun b hb => bytesOfNat_mem_lt hb)]

theorem Mem.write_reverse_eq {m : Mem} {addr data size : Nat}
    (h1 : m.offset ≤ addr) (h2 : addr - m.offset + size ≤ m.size)
    (hs : 1 ≤ size) (hd : data < 256 ^ size) :
    m.write_reverse_byte_order addr data size =
      some ⟨m.data.take (addr - m.offset) ++ (bytesOfNat data size).reverse ++
            m.data.drop (addr - m.offset + size), m.offset⟩ := by
  unfold Mem.write_reverse_byte_order
  rw [if_pos h1, if_pos h2, pyFormat_bytes hs hd, chunkPairs_flatten_map_nibPair,
    flatten_reverse_map_nibPair,
    hexDecode_flatten_map_nibPair
      (fun b hb => bytesOfNat_mem_lt (List.mem_reverse.mp hb))]

theorem spliced_slice {d bs : List Nat} {a size : Nat}
    (hlen : bs.length = size) (hb : a + size ≤ d.length) :
    (((d.take a ++ bs ++ d.drop (a + size)).drop a).take size) = bs := by
  have hta : (d.take a).length = a := by
    rw [List.length_take]
    omega
  rw [List.append_assoc, List.drop_left' hta, List.take_left' hlen]

theorem Mem.read_spliced {d bs : List Nat} {a size off : Nat}
    (hlen : bs.length = size) (hb : a + size ≤ d.length) :
    (Mem.mk (d.take a ++ bs ++ d.drop (a + size)) off).read (a + off) size =
      some (natOfBytes bs) := by
  unfold Mem.read Mem.size
  dsimp only
  have hL : (d.take a ++ bs ++ d.drop (a + size)).length = d.length := by
    simp [List.length_take, List.length_drop]
    omega
  rw [if_pos (by omega)]
  have ha : a + off - off = a := by omega
  rw [ha]
  rw [if_pos (by omega : a + size ≤ (d.take a ++ bs ++ d.drop (a + size)).length)]
  rw [spliced_slice hlen hb]

theorem natOfNibs_pyFormat_reverse {bs : List Nat} {size : Nat}
    (hs : 1 ≤ size) (hlen : bs.length = size) (hbs : ∀ b ∈ bs, b < 256) :
    natOfNibs ((chunkPairs (pyFormat (natOfBytes bs) (2 * size))).reverse.flatten) =
      natOfBytes bs.reverse := by
  have hv : natOfBytes bs < 256 ^ size := by
    rw [← hlen]
    exact natOfBytes_lt hbs
  rw [pyFormat_bytes hs hv]
  have hbytes : bytesOfNat (natOfBytes bs) size = bs := by
    rw [← hlen]
    exact bytesOfNat_natOfBytes hbs
  rw [hbytes, chunkPairs_flatten_map_nibPair, flatten_reverse_map_nibPair]
  exact natOfNibs_flatten_map_nibPair (fun b hb => hbs b (List.mem_reverse.mp hb))

theorem Mem.read_reverse_spliced {d bs : List Nat} {a size off : Nat}
    (hlen : bs.length = size) (hb : a + size ≤ d.length) (hs : 1 ≤ size)
    (hbs : ∀ b ∈ bs, b < 256) :
    (Mem.mk (d.take a ++ bs ++ d.drop (a + size)) off).read_reverse_byte_order
      (a + off) size = some (natOfBytes bs.reverse) := by
  unfold Mem.read_reverse_byte_order
  rw [Mem.read_spliced hlen hb]
  simp only [Option.map_some']
  rw [natOfNibs_pyFormat_reverse hs hlen hbs]

theorem Mem.read_reverse_eq {m : Mem} {addr size : Nat}
    (hB : m.bytesOK) (h1 : m.offset ≤ addr) (h2 : addr - m.offset + size ≤ m.size)
    (hs : 1 ≤ size) :
    m.read_reverse_byte_order addr size =
      some (natOfBytes (((m.data.drop (addr - m.offset)).take size).reverse)) := by
  have hread : m.read addr size =
      some (natOfBytes ((m.data.drop (addr - m.offset)).take size)) := by
    unfold Mem.read
    rw [if_pos h1, if_pos h2]
  unfold Mem.read_reverse_byte_order
  rw [hread]
  simp only [Option.map_some']
  have hlen : ((m.data.drop (addr - m.offset)).take size).length = size := by
    rw [List.length_take, List.length_drop]
    unfold Mem.size at h2
    omega
  rw [natOfNibs_pyFormat_reverse hs hlen
    (fun b hb => hB b (List.mem_of_mem_drop (List.mem_of_mem_take hb)))]

/-! ### Claim C2: read-after-write round trips -/

/-- C2.  For every store, address and size with the bounds precondition and
`data < 256 ^ size`: `read` immediately after `write` returns `data`, and
`read_reverse_byte_order` immediately after `write_reverse_byte_order`
returns `data`. -/
theorem C2_read_after_write (m : Mem) (addr data size : Nat)
    (h1 : m.offset ≤ addr) (h2 : addr + size - m.offset ≤ m.size)
    (hs : 1 ≤ size) (hd : data < 256 ^ size) :
    ((m.write addr data size).bind fun m1 => m1.read addr size) = some data ∧
    ((m.write_reverse_byte_order addr data size).bind fun m1 =>
      m1.read_reverse_byte_order addr size) = some data := by
  have h2a : addr - m.offset + size ≤ m.size := by omega
  have hblen : (bytesOfNat data size).length = size := bytesOfNat_length data size
  have hbd : addr - m.offset + size ≤ m.data.length := h2a
  constructor
  · rw [Mem.write_eq h1 h2a hs hd]
    simp only [Option.some_bind]
    have h := @Mem.read_spliced m.data (bytesOfNat data size) (addr - m.offset)
      size m.offset hblen hbd
    rw [show addr - m.offset + m.offset = addr by omega] at h
    rw [h, natOfBytes_bytesOfNat_of_lt hd]
  · rw [Mem.write_reverse_eq h1 h2a hs hd]
    simp only [Option.some_bind]
    have hrlen : ((bytesOfNat data size).reverse).length = size := by
      rw [List.length_reverse]
      exact hblen
    have hrb : ∀ b ∈ (bytesOfNat data size).reverse, b < 256 :=
      fun b hb => bytesOfNat_mem_lt (List.mem_reverse.mp hb)
    have h := @Mem.read_reverse_spliced m.data ((bytesOfNat data size).reverse)
      (addr - m.offset) size m.offset hrlen hbd hs hrb
    rw [show addr - m.offset + m.offset = addr by omega] at h
    rw [h, List.reverse_reverse, natOfBytes_bytesOfNat_of_lt hd]

/-- C2 witness at a concrete input. -/
theorem C2_witness :
    ((Mem.mk [0, 0, 0, 0] 0).write 1 57005 2).bind
        (fun m1 => m1.read 1 2) = some 57005 ∧
    ((Mem.mk [0, 0, 0, 0] 0).write_reverse_byte_order 1 57005 2).bind
        (fun m1 => m1.read_reverse_byte_order 1 2) = some 57005 :=
  C2_read_after_write (Mem.mk [0, 0, 0, 0] 0) 1 57005 2 (by decide) (by decide)
    (by decide) (by decide)

/-! ### Claim C9: frame property of the store -/

theorem spliced_take {d bs : List Nat} {a size : Nat}
    (hb : a + size ≤ d.length) :
    (d.take a ++ bs ++ d.drop (a + size)).take a = d.take a := by
  have hta : (d.take a).length = a := by
    rw [List.length_take]
    omega
  rw [List.append_assoc, List.take_left' hta]

theorem spliced_drop {d bs : List Nat} {a size : Nat}
    (hlen : bs.length = size) (hb : a + size ≤ d.length) :
    (d.take a ++ bs ++ d.drop (a + size)).drop (a + size) = d.drop (a + size) := by
  have hta : (d.take a ++ bs).length = a + size := by
    rw [List.length_append, List.length_take]
    omega
  rw [List.drop_left' hta]

theorem spliced_length {d bs : List Nat} {a size : Nat}
    (hlen : bs.length = size) (hb : a + size ≤ d.length) :
    (d.take a ++ bs ++ d.drop (a + size)).length = d.length := by
  simp only [List.length_append, List.length_take, List.length_drop]
  omega

/-- C9.  Under the bounds precondition and `data < 256 ^ size`, `Mem.write`
and `Mem.write_reverse_byte_order` modify only the `size` bytes starting at
`addr - offset`: the prefix below the write window, the suffix above it, the
total size and the offset are all unchanged. -/
theorem C9_write_frame (m : Mem) (addr data size : Nat)
    (h1 : m.offset ≤ addr) (h2 : addr + size - m.offset ≤ m.size)
    (hs : 1 ≤ size) (hd : data < 256 ^ size) :
    ((m.write addr data size).map fun m1 =>
        (m1.data.take (addr - m.offset), m1.data.drop (addr - m.offset + size),
         m1.size, m1.offset)) =
      some (m.data.take (addr - m.offset), m.data.drop (addr - m.offset + size),
            m.size, m.offset) ∧
    ((m.write_reverse_byte_order addr data size).map fun m1 =>
        (m1.data.take (addr - m.offset), m1.data.drop (addr - m.offset + size),
         m1.size, m1.offset)) =
      some (m.data.take (addr - m.offset), m.data.drop (addr - m.offset + size),
            m.size, m.offset) := by
  have h2a : addr - m.offset + size ≤ m.size := by omega
  have hbd : addr - m.offset + size ≤ m.data.length := h2a
  have hblen : (bytesOfNat data size).length = size := bytesOfNat_length data size
  have hrlen : ((bytesOfNat data size).reverse).length = size := by
    rw [List.length_reverse]
    exact hblen
  constructor
  · rw [Mem.write_eq h1 h2a hs hd]
    simp only [Option.map_some']
    unfold Mem.size
    rw [spliced_take hbd, spliced_drop hblen hbd, spliced_length hblen hbd]
  · rw [Mem.write_reverse_eq h1 h2a hs hd]
    simp only [Option.map_some']
    unfold Mem.size
    rw [spliced_take hbd, spliced_drop hrlen hbd, spliced_length hrlen hbd]

/-- C9 witness at a concrete input. -/
theorem C9_witness :
    (((Mem.mk [7, 7, 7, 7] 2).write 3 171 1).map fun m1 =>
        (m1.data.take 1, m1.data.drop 2, m1.size, m1.offset)) =
      some ([7], [7, 7], 4, 2) ∧
    (((Mem.mk [7, 7, 7, 7] 2).write_reverse_byte_order 3 171 1).map fun m1 =>
        (m1.data.take 1, m1.data.drop 2, m1.size, m1.offset)) =
      some ([7], [7, 7], 4, 2) :=
  C9_write_frame (Mem.mk [7, 7, 7, 7] 2) 3 171 1 (by decide) (by decide)
    (by decide) (by decide)

/-! ### Claim C5: overflowing byte-width encode (code bug) -/

/-- C5.  The spec declares an overflowing byte-width encode
(`data ≥ 256 ^ size`) a fatal precondition assertion.  The code contains no
such assertion: at the failing input `data = 0x1000`, `size = 1` the encode
silently produces *two* bytes, `Mem.write` splices both into the store
(growing a 2-byte store to 3 bytes, so a subsequent `size()`-based bounds
check is corrupted), and `tb.swp_byte_order` happily consumes the 2-byte
encoding and returns 16. -/
theorem C5_overflow_eval :
    (Mem.mk [0, 0] 0).write 0 4096 1 = some (Mem.mk [16, 0, 0] 0) ∧
    ((Mem.mk [0, 0] 0).write 0 4096 1).map Mem.size = some 3 ∧
    swp_byte_order 4096 1 = 16 := by decide

/-! ### Claim C1: read bursts (corrected: stride is `2^arsize`, not `arsize`) -/

/-- C1 counterexample.  At the concrete store `[1,2,3,4]`, `araddr = 0`,
`arlen = 1`, `arsize = 1` the burst data is NOT the sequence of
`read_reverse_byte_order` values at stride `arsize = 1`
(`address + beat_index * beat_size-field`) that the claim predicts: the code
reads beat 1 at address 2 (stride `2 ^ arsize`), not at address 1. -/
theorem C1_counterexample :
    ¬ ((Mem.mk [1, 2, 3, 4] 0).readBurst 0 1 1).map Prod.fst =
      [(Mem.mk [1, 2, 3, 4] 0).read_reverse_byte_order (0 + 0 * 1) 2,
       (Mem.mk [1, 2, 3, 4] 0).read_reverse_byte_order (0 + 1 * 1) 2] := by
  decide

/-- C1 (amended).  A read burst with accepted address `A`, length field `L`
and size field `S` emits `L+1` beats; beat `i` is the `2^S`-byte value read
from the backing store at address `A + i * 2^S` in reversed byte order, and
the last-beat marker is asserted exactly on beat `L`. -/
theorem C1_read_burst (m : Mem) (araddr arlen arsize : Nat)
    (hB : m.bytesOK) (h1 : m.offset ≤ araddr)
    (h2 : araddr - m.offset + (arlen + 1) * 2 ^ arsize ≤ m.size) :
    (m.readBurst araddr arlen arsize).length = arlen + 1 ∧
    ∀ i ≤ arlen, (m.readBurst araddr arlen arsize)[i]? =
      some (some (natOfBytes
          (((m.data.drop (araddr - m.offset + i * 2 ^ arsize)).take
            (2 ^ arsize)).reverse)),
        decide (i = arlen)) := by
  constructor
  · simp [Mem.readBurst]
  · intro i hi
    unfold Mem.readBurst
    rw [List.getElem?_map, List.getElem?_range (by omega : i < arlen + 1)]
    simp only [Option.map_some']
    have hmul : (i + 1) * 2 ^ arsize ≤ (arlen + 1) * 2 ^ arsize :=
      Nat.mul_le_mul_right _ (by omega)
    have hexp : (i + 1) * 2 ^ arsize = i * 2 ^ arsize + 2 ^ arsize := by ring
    have h1i : m.offset ≤ araddr + i * 2 ^ arsize := by omega
    have h2i : araddr + i * 2 ^ arsize - m.offset + 2 ^ arsize ≤ m.size := by
      omega
    have hrw := Mem.read_reverse_eq hB h1i h2i Nat.one_le_two_pow
    rw [hrw,
      show araddr + i * 2 ^ arsize - m.offset = araddr - m.offset + i * 2 ^ arsize
        from by omega]

/-- C1 (amended) witness at a concrete input. -/
theorem C1_witness :
    ((Mem.mk [1, 2, 3, 4] 0).readBurst 0 1 1).length = 2 ∧
    ∀ i ≤ 1, ((Mem.mk [1, 2, 3, 4] 0).readBurst 0 1 1)[i]? =
      some (some (natOfBytes
          ((((Mem.mk [1, 2, 3, 4] 0).data.drop (0 - 0 + i * 2 ^ 1)).take
            (2 ^ 1)).reverse)),
        decide (i = 1)) :=
  C1_read_burst (Mem.mk [1, 2, 3, 4] 0) 0 1 1
    (by unfold Mem.bytesOK; decide) (by decide) (by decide)

/-! ### AXI4-Stream channel (axis.py)

Loopback channel abstraction: a transfer happens exactly on the clock edges
where valid is asserted and readiness is absent or asserted, so the accepted
beats form a sequence; `AXIS_Writer.write` produces it and
`AXIS_Reader.read` consumes it. -/

/-- Wire values sampled at one accepted AXI4-Stream beat. -/
structure SBeat where
  data : Nat
  keep : Nat
  last : Bool
  user : Nat
  deriving DecidableEq

/-- The full-width TKEEP mask `pow(2, self.bit_width/8)-1` (Python 2 integer
division). -/
def fullMask (bit_width : Nat) : Nat := 2 ^ (bit_width / 8) - 1

/-- `AXIS_Writer.write` at accepted-beat granularity: beat `i` carries
`tdata[i]`; the final beat carries the supplied `tkeep` and the last marker,
every other beat the full-width mask; when the `tuser` side-band signal was
detected at connect time, beat `i` carries `tuser[i]` zero-padded past the
end of `tuser` — and `tuser = None` raises a `TypeError` on the first beat
(`i < len(tuser)` with `len` of `None`). -/
def AXIS_Writer_write (bit_width : Nat) (hasTuser : Bool) (tkeep : Nat) :
    List Nat → Option (List Nat) → Except String (List SBeat)
  | [], _ => .ok []
  | x :: rest, tuser =>
    if hasTuser && tuser.isNone then
      .error "TypeError: object of type NoneType has no len()"
    else
      let u := if hasTuser then (tuser.getD []).headD 0 else 0
      let isLast := rest.isEmpty
      let b : SBeat := ⟨x, if isLast then tkeep else fullMask bit_width, isLast, u⟩
      (AXIS_Writer_write bit_width hasTuser tkeep rest (tuser.map (List.drop 1))).map
        fun bs => b :: bs

/-- `AXIS_Reader.read` over a sequence of accepted beats, carrying the
`tdata`/`tuser` accumulator lists: append the beat data (and user when the
side-band is bound); terminate with the final keep on a last-marked beat;
fail on a non-final beat whose keep is not the full-width mask; an exhausted
beat sequence means the reader blocks forever on clock edges (`error`). -/
def AXIS_Reader_read (bit_width : Nat) (hasTuser : Bool) :
    List SBeat → List Nat → List Nat →
    Except String (List Nat × Nat × Option (List Nat))
  | [], _, _ => .error "blocked: reader waits for further beats"
  | b :: rest, tdata, tuser =>
    let tdata := tdata ++ [b.data]
    let tuser := if hasTuser then tuser ++ [b.user] else tuser
    if b.last then
      .ok (tdata, b.keep, if hasTuser then some tuser else none)
    else if b.keep ≠ fullMask bit_width then
      .error "invalid AXI4-Stream TKEEP signal value"
    else
      AXIS_Reader_read bit_width hasTuser rest tdata tuser

theorem reader_writer_aux (bw : Nat) (ht : Bool) (tkeep : Nat) :
    ∀ (td tu da ua : List Nat), td ≠ [] → tu.length ≤ td.length →
    ∃ bs, AXIS_Writer_write bw ht tkeep td (some tu) = .ok bs ∧
      AXIS_Reader_read bw ht bs da ua =
        .ok (da ++ td, tkeep,
          if ht then some (ua ++ (tu ++ List.replicate (td.length - tu.length) 0))
          else none) := by
  intro td
  induction td with
  | nil => intro tu da ua hne; exact absurd rfl hne
  | cons x rest ih =>
    intro tu da ua _ hlen
    rcases rest with _ | ⟨y, rest2⟩
    · -- single (final) beat
      refine ⟨[⟨x, tkeep, true, if ht then tu.headD 0 else 0⟩], ?_, ?_⟩
      · simp only [AXIS_Writer_write, Option.isNone_some, Bool.and_false,
          Bool.false_eq_true, if_false]
        rfl
      · rw [AXIS_Reader_read]
        rw [if_pos rfl]
        cases ht with
        | false => simp
        | true =>
          simp only [if_pos rfl]
          rcases tu with _ | ⟨a, tu2⟩
          · simp
          · rcases tu2 with _ | ⟨a2, tu3⟩
            · simp
            · exfalso
              have hL : (a :: a2 :: tu3).length = tu3.length + 2 := by simp
              have hX : ([x] : List Nat).length = 1 := rfl
              omega
    · -- non-final beat followed by more beats
      have hne2 : (y :: rest2) ≠ ([] : List Nat) := by simp
      have hlen2 : (tu.drop 1).length ≤ (y :: rest2).length := by
        rw [List.length_drop]
        have h1 : (x :: y :: rest2).length = rest2.length + 2 := by simp
        have h2 : (y :: rest2).length = rest2.length + 1 := by simp
        omega
      obtain ⟨bs2, hw2, hr2⟩ := ih (tu.drop 1) (da ++ [x])
        (if ht then ua ++ [if ht then tu.headD 0 else 0] else ua) hne2 hlen2
      refine ⟨⟨x, fullMask bw, false, if ht then tu.headD 0 else 0⟩ :: bs2, ?_, ?_⟩
      · rw [AXIS_Writer_write]
        simp only [Option.isNone_some, Bool.and_false, Bool.false_eq_true, if_false,
          List.isEmpty_cons, Option.map_some', hw2]
        rfl
      · rw [AXIS_Reader_read]
        rw [if_neg (by simp), if_neg (by simp)]
        rw [hr2]
        have hdata : (da ++ [x]) ++ (y :: rest2) = da ++ x :: y :: rest2 := by simp
        cases ht with
        | false => simp only [if_neg (by simp : ¬ (false = true))] at *; rw [hdata]
        | true =>
          simp only [if_pos rfl] at *
          rw [hdata]
          rcases tu with _ | ⟨a, tu2⟩
          · simp [List.replicate_succ]
          · have hL1 : (y :: rest2).length - ((a :: tu2).drop 1).length =
                (x :: y :: rest2).length - (a :: tu2).length := by
              simp
            simp only [List.drop_one, List.tail_cons, List.headD_cons] at hL1 ⊢
            rw [hL1]
            simp

/-! ### Claim C3: stream loopback round trip -/

/-- C3.  For every non-empty beat list `tdata`, arbitrary final keep mask
`tkeep` and metadata list `tuser` with `len(tuser) <= len(tdata)`, a
`read()` observing the beats driven by `write(tdata, tkeep, tuser)` over a
loopback returns exactly `(tdata, tkeep, tuser)` with `tuser` zero-padded
to the beat count when the `tuser` side-band is bound, and `None` when it
is not. -/
theorem C3_loopback (bw : Nat) (ht : Bool) (tdata : List Nat) (tkeep : Nat)
    (tuser : List Nat) (hne : tdata ≠ []) (hlen : tuser.length ≤ tdata.length) :
    (AXIS_Writer_write bw ht tkeep tdata (some tuser)).bind
        (fun bs => AXIS_Reader_read bw ht bs [] []) =
      .ok (tdata, tkeep,
        if ht then
          some (tuser ++ List.replicate (tdata.length - tuser.length) 0)
        else none) := by
  obtain ⟨bs, hw, hr⟩ := reader_writer_aux bw ht tkeep tdata tuser [] [] hne hlen
  rw [hw]
  show AXIS_Reader_read bw ht bs [] [] = _
  rw [hr]
  simp

/-- C3 witness at a concrete input (16-bit channel, bound side-band, short
metadata list). -/
theorem C3_witness :
    (AXIS_Writer_write 16 true 1 [0x1122, 0x3344, 0x55] (some [9])).bind
        (fun bs => AXIS_Reader_read 16 true bs [] []) =
      .ok ([0x1122, 0x3344, 0x55], 1, some ([9] ++ List.replicate (3 - 1) 0)) := by
  have h := C3_loopback 16 true [0x1122, 0x3344, 0x55] 1 [9]
    (by decide) (by decide)
  simpa using h

/-! ### Claim C4: reader protocol-violation behaviour -/

theorem reader_error_aux (bw : Nat) (ht : Bool) :
    ∀ (pre : List SBeat) (bad : SBeat) (rest : List SBeat) (da ua : List Nat),
      (∀ b ∈ pre, b.last = false ∧ b.keep = fullMask bw) →
      bad.last = false → bad.keep ≠ fullMask bw →
      AXIS_Reader_read bw ht (pre ++ bad :: rest) da ua =
        .error "invalid AXI4-Stream TKEEP signal value" := by
  intro pre
  induction pre with
  | nil =>
    intro bad rest da ua _ hlast hkeep
    rw [List.nil_append, AXIS_Reader_read]
    rw [if_neg (by simp [hlast]), if_pos hkeep]
  | cons p pre2 ih =>
    intro bad rest da ua hpre hlast hkeep
    have hp := hpre p (List.mem_cons_self p pre2)
    rw [List.cons_append, AXIS_Reader_read]
    rw [if_neg (by simp [hp.1]), if_neg (by simp [hp.2])]
    exact ih bad rest _ _ (fun b hb => hpre b (List.mem_cons_of_mem p hb)) hlast hkeep

theorem reader_ok_aux (bw : Nat) (ht : Bool) :
    ∀ (pre : List SBeat) (fb : SBeat) (rest : List SBeat) (da ua : List Nat),
      (∀ b ∈ pre, b.last = false ∧ b.keep = fullMask bw) →
      fb.last = true →
      AXIS_Reader_read bw ht (pre ++ fb :: rest) da ua =
        .ok (da ++ pre.map SBeat.data ++ [fb.data], fb.keep,
          if ht then some (ua ++ pre.map SBeat.user ++ [fb.user]) else none) := by
  intro pre
  induction pre with
  | nil =>
    intro fb rest da ua _ hlast
    rw [List.nil_append, AXIS_Reader_read]
    rw [if_pos hlast]
    cases ht with
    | false => simp
    | true => simp
  | cons p pre2 ih =>
    intro fb rest da ua hpre hlast
    have hp := hpre p (List.mem_cons_self p pre2)
    rw [List.cons_append, AXIS_Reader_read]
    rw [if_neg (by simp [hp.1]), if_neg (by simp [hp.2])]
    rw [ih fb rest _ _ (fun b hb => hpre b (List.mem_cons_of_mem p hb)) hlast]
    cases ht with
    | false => simp
    | true => simp

/-- C4.  Whenever the reader accepts a beat whose last marker is deasserted
and whose keep mask differs from the full-width mask, `read()` fails with
the protocol-violation message immediately, whatever beats follow;
conversely it never fails on accepted non-final beats carrying the
full-width mask, and the final beat's keep mask is returned unchecked
(arbitrary `fb.keep`). -/
theorem C4_reader_keep_check (bw : Nat) (ht : Bool) (pre : List SBeat)
    (bad fb : SBeat) (rest rest2 : List SBeat) (da ua : List Nat)
    (hpre : ∀ b ∈ pre, b.last = false ∧ b.keep = fullMask bw)
    (hblast : bad.last = false) (hbkeep : bad.keep ≠ fullMask bw)
    (hflast : fb.last = true) :
    AXIS_Reader_read bw ht (pre ++ bad :: rest) da ua =
      .error "invalid AXI4-Stream TKEEP signal value" ∧
    AXIS_Reader_read bw ht (pre ++ fb :: rest2) da ua =
      .ok (da ++ pre.map SBeat.data ++ [fb.data], fb.keep,
        if ht then some (ua ++ pre.map SBeat.user ++ [fb.user]) else none) :=
  ⟨reader_error_aux bw ht pre bad rest da ua hpre hblast hbkeep,
   reader_ok_aux bw ht pre fb rest2 da ua hpre hflast⟩

/-- C4 witness at a concrete input (16-bit channel, one full-mask non-final
beat, then either a bad non-final beat followed by a junk beat, or a final
beat with a partial mask). -/
theorem C4_witness :
    AXIS_Reader_read 16 false
        ([⟨1, 3, false, 0⟩] ++ ⟨2, 1, false, 0⟩ :: [⟨9, 3, true, 0⟩]) [] [] =
      .error "invalid AXI4-Stream TKEEP signal value" ∧
    AXIS_Reader_read 16 false
        ([⟨1, 3, false, 0⟩] ++ ⟨5, 1, true, 0⟩ :: []) [] [] =
      .ok ([] ++ [⟨1, 3, false, 0⟩].map SBeat.data ++ [5], 1,
        if false then some ([] ++ [⟨1, 3, false, 0⟩].map SBeat.user ++ [0])
        else none) :=
  C4_reader_keep_check 16 false [⟨1, 3, false, 0⟩] ⟨2, 1, false, 0⟩
    ⟨5, 1, true, 0⟩ [⟨9, 3, true, 0⟩] [] [] []
    (by decide) (by decide) (by decide) (by decide)

/-! ### Claim C10: writer with an unbound or missing tuser argument -/

/-- The beats driven by `AXIS_Writer.write` when no tuser side-band is
bound (the `tuser` argument is then never consulted). -/
def writerBeatsNoUser (bw tkeep : Nat) : List Nat → List SBeat
  | [] => []
  | x :: rest =>
    ⟨x, if rest.isEmpty then tkeep else fullMask bw, rest.isEmpty, 0⟩ ::
      writerBeatsNoUser bw tkeep rest

theorem writer_no_tuser (bw tkeep : Nat) :
    ∀ (td : List Nat) (tu : Option (List Nat)),
      AXIS_Writer_write bw false tkeep td tu =
        .ok (writerBeatsNoUser bw tkeep td) := by
  intro td
  induction td with
  | nil => intro tu; rfl
  | cons x rest ih =>
    intro tu
    rw [AXIS_Writer_write]
    simp only [Bool.false_and, Bool.false_eq_true, if_false, ih, writerBeatsNoUser]
    rfl

/-- C10.  If the optional tuser side-band was detected at connect time,
`write` with non-empty `tdata` and the default `tuser = None` fails with a
`TypeError` on the first beat (`len` of `None`); when the side-band is
absent the `tuser` argument is never read and the write succeeds whatever
it is. -/
theorem C10_writer_tuser (bw tkeep x : Nat) (rest tdata : List Nat)
    (tu1 tu2 : Option (List Nat)) :
    AXIS_Writer_write bw true tkeep (x :: rest) none =
      .error "TypeError: object of type NoneType has no len()" ∧
    AXIS_Writer_write bw false tkeep tdata tu1 =
      AXIS_Writer_write bw false tkeep tdata tu2 ∧
    ∃ bs, AXIS_Writer_write bw false tkeep tdata tu1 = .ok bs := by
  refine ⟨?_, ?_, ?_⟩
  · rw [AXIS_Writer_write]
    simp
  · rw [writer_no_tuser bw tkeep tdata tu1, writer_no_tuser bw tkeep tdata tu2]
  · exact ⟨writerBeatsNoUser bw tkeep tdata, writer_no_tuser bw tkeep tdata tu1⟩

/-! ### Claim C7: randomized idle gaps in the stream writer -/

/-- Wire state of the stream-writer signals at one clock edge. -/
structure Cycle where
  valid : Bool
  data : Nat
  keep : Nat
  last : Bool
  user : Nat
  deriving DecidableEq

/-- Cycle-level trace of `AXIS_Writer.write`: each beat's wire values are
held for `delay+1` edges (readiness withheld for `delay` edges, acceptance
on the last one); after the acknowledgement of a non-final beat, when gap
insertion is enabled and the 20%-draw fires (`gs` oracle), valid is
deasserted for exactly one edge; after the final beat's acknowledgement
valid and last are deasserted directly (terminal wire state).  `pd`, `pk`,
`pu` carry the previously driven data/keep/user values, which the code
leaves on the wire. -/
def AXIS_Writer_cycles (bw tkeep : Nat) (gapsEn ht : Bool) :
    Nat → Nat → Nat → List Nat → List Nat → List Nat → List Bool → List Cycle
  | pd, pk, pu, [], _, _, _ => [⟨false, pd, pk, false, pu⟩]
  | _, _, pu, x :: rest, tu, ds, gs =>
    List.replicate (ds.headD 0 + 1)
      ⟨true, x, if rest.isEmpty then tkeep else fullMask bw, rest.isEmpty,
        if ht then tu.headD 0 else pu⟩ ++
    (if gapsEn && !rest.isEmpty && gs.headD false then
      [⟨false, x, if rest.isEmpty then tkeep else fullMask bw, false,
        if ht then tu.headD 0 else pu⟩]
     else []) ++
    AXIS_Writer_cycles bw tkeep gapsEn ht x
      (if rest.isEmpty then tkeep else fullMask bw)
      (if ht then tu.headD 0 else pu) rest (tu.drop 1) (ds.drop 1) (gs.drop 1)

theorem idx_rep_append (n : Nat) (b : Cycle) (t : List Cycle) (j : Nat) :
    (List.replicate n b ++ t)[j]? = if j < n then some b else t[j - n]? := by
  by_cases h : j < n
  · rw [if_pos h, List.getElem?_append_left (by simpa using h)]
    simp [List.getElem?_replicate, h]
  · rw [if_neg h, List.getElem?_append_right (by simpa using (by omega : n ≤ j))]
    simp

theorem wcycles_ne_nil (bw tkeep : Nat) (gapsEn ht : Bool) (pd pk pu : Nat)
    (td tu ds : List Nat) (gs : List Bool) :
    AXIS_Writer_cycles bw tkeep gapsEn ht pd pk pu td tu ds gs ≠ [] := by
  cases td with
  | nil => simp [AXIS_Writer_cycles]
  | cons x rest =>
    rw [AXIS_Writer_cycles]
    simp [List.replicate_succ]

theorem wcycles_head (bw tkeep : Nat) (gapsEn ht : Bool) (pd pk pu x : Nat)
    (rest tu ds : List Nat) (gs : List Bool) :
    ∃ c, (AXIS_Writer_cycles bw tkeep gapsEn ht pd pk pu (x :: rest) tu ds gs)[0]? =
      some c ∧ c.valid = true := by
  rw [AXIS_Writer_cycles, List.append_assoc, idx_rep_append, if_pos (by omega)]
  exact ⟨_, rfl, rfl⟩

theorem wcycles_gap (bw tkeep : Nat) (gapsEn ht : Bool) :
    ∀ (td : List Nat) (pd pk pu : Nat) (tu ds : List Nat) (gs : List Bool)
      (j : Nat) (c : Cycle),
      j + 1 < (AXIS_Writer_cycles bw tkeep gapsEn ht pd pk pu td tu ds gs).length →
      (AXIS_Writer_cycles bw tkeep gapsEn ht pd pk pu td tu ds gs)[j]? = some c →
      c.valid = false →
      1 ≤ j ∧
      (∃ cp, (AXIS_Writer_cycles bw tkeep gapsEn ht pd pk pu td tu ds gs)[j-1]? =
        some cp ∧ cp.valid = true ∧ cp.last = false) ∧
      (∃ cn, (AXIS_Writer_cycles bw tkeep gapsEn ht pd pk pu td tu ds gs)[j+1]? =
        some cn ∧ cn.valid = true) := by
  intro td
  induction td with
  | nil =>
    intro pd pk pu tu ds gs j c hj hc hv
    rw [AXIS_Writer_cycles] at hj
    simp at hj
  | cons x rest ih =>
    intro pd pk pu tu ds gs j c hj hc hv
    rw [AXIS_Writer_cycles, List.append_assoc] at hj hc ⊢
    rw [idx_rep_append] at hc
    by_cases hjR : j < ds.headD 0 + 1
    · rw [if_pos hjR] at hc
      have hcb := Option.some.inj hc
      rw [← hcb] at hv
      simp at hv
    · rw [if_neg hjR] at hc
      by_cases hg : (gapsEn && !rest.isEmpty && gs.headD false) = true
      · rw [if_pos hg] at hc hj ⊢
        have hrest : rest.isEmpty = false := by
          rcases Bool.and_eq_true_iff.mp hg with ⟨h1, _⟩
          rcases Bool.and_eq_true_iff.mp h1 with ⟨_, h2⟩
          simpa using h2
        rcases rest with _ | ⟨y, rest2⟩
        · simp at hrest
        simp only [List.length_append, List.length_replicate, List.length_cons,
          List.singleton_append] at hj
        by_cases hj0 : j - (ds.headD 0 + 1) = 0
        · -- c is the inserted gap cycle
          refine ⟨by omega, ?_, ?_⟩
          · rw [idx_rep_append, if_pos (by omega)]
            refine ⟨_, rfl, rfl, ?_⟩
            simp
          · rw [idx_rep_append, if_neg (by omega),
              show j + 1 - (ds.headD 0 + 1) = 1 from by omega]
            rw [List.singleton_append, List.getElem?_cons_succ]
            obtain ⟨cn, hcn, hcnv⟩ := wcycles_head bw tkeep gapsEn ht x
              (if (y :: rest2).isEmpty then tkeep else fullMask bw)
              (if ht then tu.headD 0 else pu) y rest2 (tu.drop 1) (ds.drop 1)
              (gs.drop 1)
            exact ⟨cn, hcn, hcnv⟩
        · -- c lies inside the recursive tail
          rw [List.singleton_append,
            show j - (ds.headD 0 + 1) = (j - (ds.headD 0 + 1) - 1) + 1 from by omega,
            List.getElem?_cons_succ] at hc
          obtain ⟨h1j, ⟨cp, hcp, hcpv, hcpl⟩, ⟨cn, hcn, hcnv⟩⟩ :=
            ih x (if (y :: rest2).isEmpty then tkeep else fullMask bw)
              (if ht then tu.headD 0 else pu) (tu.drop 1) (ds.drop 1) (gs.drop 1)
              (j - (ds.headD 0 + 1) - 1) c (by omega) hc hv
          refine ⟨by omega, ⟨cp, ?_, hcpv, hcpl⟩, ⟨cn, ?_, hcnv⟩⟩
          · rw [idx_rep_append, if_neg (by omega), List.singleton_append,
              show j - 1 - (ds.headD 0 + 1) = (j - (ds.headD 0 + 1) - 1 - 1) + 1
                from by omega,
              List.getElem?_cons_succ]
            exact hcp
          · rw [idx_rep_append, if_neg (by omega), List.singleton_append,
              show j + 1 - (ds.headD 0 + 1) = (j - (ds.headD 0 + 1) - 1 + 1) + 1
                from by omega,
              List.getElem?_cons_succ]
            exact hcn
      · rw [if_neg hg] at hc hj ⊢
        rw [List.nil_append] at hc hj ⊢
        simp only [List.length_append, List.length_replicate] at hj
        obtain ⟨h1j, ⟨cp, hcp, hcpv, hcpl⟩, ⟨cn, hcn, hcnv⟩⟩ :=
          ih x (if rest.isEmpty then tkeep else fullMask bw)
            (if ht then tu.headD 0 else pu) (tu.drop 1) (ds.drop 1) (gs.drop 1)
            (j - (ds.headD 0 + 1)) c (by omega) hc hv
        refine ⟨by omega, ⟨cp, ?_, hcpv, hcpl⟩, ⟨cn, ?_, hcnv⟩⟩
        · rw [idx_rep_append, if_neg (by omega),
            show j - 1 - (ds.headD 0 + 1) = j - (ds.headD 0 + 1) - 1 from by omega]
          exact hcp
        · rw [idx_rep_append, if_neg (by omega),
            show j + 1 - (ds.headD 0 + 1) = j - (ds.headD 0 + 1) + 1 from by omega]
          exact hcn

theorem getLast?_append_ne_nil {α : Type} {l1 l2 : List α} (h : l2 ≠ []) :
    (l1 ++ l2).getLast? = l2.getLast? := by
  rw [List.getLast?_append]
  cases hl : l2.getLast? with
  | none => exact absurd (List.getLast?_eq_none_iff.mp hl) h
  | some a => rfl

theorem wcycles_last (bw tkeep : Nat) (gapsEn ht : Bool) :
    ∀ (td : List Nat) (pd pk pu : Nat) (tu ds : List Nat) (gs : List Bool),
      ∃ e, (AXIS_Writer_cycles bw tkeep gapsEn ht pd pk pu td tu ds gs).getLast? =
        some e ∧ e.valid = false ∧ e.last = false := by
  intro td
  induction td with
  | nil =>
    intro pd pk pu tu ds gs
    exact ⟨⟨false, pd, pk, false, pu⟩, by simp [AXIS_Writer_cycles], rfl, rfl⟩
  | cons x rest ih =>
    intro pd pk pu tu ds gs
    rw [AXIS_Writer_cycles, List.append_assoc]
    obtain ⟨e, he, hev, hel⟩ := ih x
      (if rest.isEmpty then tkeep else fullMask bw)
      (if ht then tu.headD 0 else pu) (tu.drop 1) (ds.drop 1) (gs.drop 1)
    have hne := wcycles_ne_nil bw tkeep gapsEn ht x
      (if rest.isEmpty then tkeep else fullMask bw)
      (if ht then tu.headD 0 else pu) rest (tu.drop 1) (ds.drop 1) (gs.drop 1)
    refine ⟨e, ?_, hev, hel⟩
    rw [getLast?_append_ne_nil (fun hEq => hne (List.append_eq_nil.mp hEq).2),
      getLast?_append_ne_nil hne]
    exact he

theorem wcycles_len2 (bw tkeep : Nat) (gapsEn ht : Bool) (pd pk pu x : Nat)
    (rest tu ds : List Nat) (gs : List Bool) :
    2 ≤ (AXIS_Writer_cycles bw tkeep gapsEn ht pd pk pu (x :: rest) tu ds gs).length := by
  rw [AXIS_Writer_cycles]
  have hne := wcycles_ne_nil bw tkeep gapsEn ht x
    (if rest.isEmpty then tkeep else fullMask bw)
    (if ht then tu.headD 0 else pu) rest (tu.drop 1) (ds.drop 1) (gs.drop 1)
  have hpos := List.length_pos.mpr hne
  simp only [List.length_append, List.length_replicate]
  omega

theorem wcycles_seclast (bw tkeep : Nat) (gapsEn ht : Bool) :
    ∀ (td : List Nat), td ≠ [] →
    ∀ (pd pk pu : Nat) (tu ds : List Nat) (gs : List Bool),
      ∃ f1, (AXIS_Writer_cycles bw tkeep gapsEn ht pd pk pu td tu ds gs)[
          (AXIS_Writer_cycles bw tkeep gapsEn ht pd pk pu td tu ds gs).length - 2]? =
        some f1 ∧ f1.valid = true ∧ f1.last = true := by
  intro td
  induction td with
  | nil => intro h; exact absurd rfl h
  | cons x rest ih =>
    intro _ pd pk pu tu ds gs
    rcases rest with _ | ⟨y, rest2⟩
    · -- single (final) beat: no gap is possible after it
      simp only [AXIS_Writer_cycles, List.isEmpty_nil, Bool.not_true, Bool.and_false,
        Bool.false_and, Bool.false_eq_true, if_false, eq_self_iff_true, if_true,
        List.nil_append, List.append_nil, List.length_append, List.length_replicate,
        List.length_cons, List.length_nil]
      rw [idx_rep_append, if_pos (by omega)]
      exact ⟨_, rfl, rfl, rfl⟩
    · -- at least two beats: recurse into the tail
      obtain ⟨f1, hf, hfv, hfl⟩ := ih (by simp) x
        (if (y :: rest2).isEmpty then tkeep else fullMask bw)
        (if ht then tu.headD 0 else pu) (tu.drop 1) (ds.drop 1) (gs.drop 1)
      have hT2 := wcycles_len2 bw tkeep gapsEn ht x
        (if (y :: rest2).isEmpty then tkeep else fullMask bw)
        (if ht then tu.headD 0 else pu) y rest2 (tu.drop 1) (ds.drop 1) (gs.drop 1)
      rw [AXIS_Writer_cycles, List.append_assoc]
      by_cases hg : (gapsEn && !(y :: rest2).isEmpty && gs.headD false) = true
      · rw [if_pos hg]
        refine ⟨f1, ?_, hfv, hfl⟩
        simp only [List.length_append, List.length_replicate, List.singleton_append,
          List.length_cons]
        rw [idx_rep_append, if_neg (by omega)]
        rw [show ds.headD 0 + 1 +
            ((AXIS_Writer_cycles bw tkeep gapsEn ht x
              (if (y :: rest2).isEmpty then tkeep else fullMask bw)
              (if ht then tu.headD 0 else pu) (y :: rest2) (tu.drop 1) (ds.drop 1)
              (gs.drop 1)).length + 1) - 2 - (ds.headD 0 + 1) =
            ((AXIS_Writer_cycles bw tkeep gapsEn ht x
              (if (y :: rest2).isEmpty then tkeep else fullMask bw)
              (if ht then tu.headD 0 else pu) (y :: rest2) (tu.drop 1) (ds.drop 1)
              (gs.drop 1)).length - 2) + 1 from by omega]
        rw [List.getElem?_cons_succ]
        exact hf
      · rw [if_neg hg]
        refine ⟨f1, ?_, hfv, hfl⟩
        simp only [List.length_append, List.length_replicate, List.nil_append,
          List.length_nil]
        rw [idx_rep_append, if_neg (by omega)]
        rw [show ds.headD 0 + 1 +
            (AXIS_Writer_cycles bw tkeep gapsEn ht x
              (if (y :: rest2).isEmpty then tkeep else fullMask bw)
              (if ht then tu.headD 0 else pu) (y :: rest2) (tu.drop 1) (ds.drop 1)
              (gs.drop 1)).length - 2 - (ds.headD 0 + 1) =
            (AXIS_Writer_cycles bw tkeep gapsEn ht x
              (if (y :: rest2).isEmpty then tkeep else fullMask bw)
              (if ht then tu.headD 0 else pu) (y :: rest2) (tu.drop 1) (ds.drop 1)
              (gs.drop 1)).length - 2 from by omega]
        exact hf

/-- C7.  In every cycle trace of `AXIS_Writer.write` with gap insertion
enabled (for any random draws, readiness delays and payload): a cycle with
valid deasserted that is not the terminal deassert cycle is an inserted
idle gap — it lasts exactly one cycle, is immediately preceded by the
acknowledged cycle of a beat whose last marker is deasserted (hence never
follows the final beat) and is immediately followed by a valid beat cycle;
the trace ends with valid and last deasserted, and when the payload is
non-empty the cycle before that terminal one is the final beat's
acknowledgement (valid and last asserted) — the final beat is followed
directly by the deassert, never by a gap. -/
theorem C7_writer_gaps (bw tkeep : Nat) (gapsEn ht : Bool) (pd pk pu : Nat)
    (tdata tu ds : List Nat) (gs : List Bool) (tr : List Cycle)
    (htr : tr = AXIS_Writer_cycles bw tkeep gapsEn ht pd pk pu tdata tu ds gs) :
    (∀ j c, j + 1 < tr.length → tr[j]? = some c → c.valid = false →
      1 ≤ j ∧
      (∃ cp, tr[j-1]? = some cp ∧ cp.valid = true ∧ cp.last = false) ∧
      (∃ cn, tr[j+1]? = some cn ∧ cn.valid = true)) ∧
    (∃ e, tr.getLast? = some e ∧ e.valid = false ∧ e.last = false) ∧
    (tdata ≠ [] →
      ∃ f1, tr[tr.length - 2]? = some f1 ∧ f1.valid = true ∧
        f1.last = true) := by
  subst htr
  exact ⟨fun j c hj hc hv =>
      wcycles_gap bw tkeep gapsEn ht tdata pd pk pu tu ds gs j c hj hc hv,
    wcycles_last bw tkeep gapsEn ht tdata pd pk pu tu ds gs,
    fun hne => wcycles_seclast bw tkeep gapsEn ht tdata hne pd pk pu tu ds gs⟩

/-- C7 witness at a concrete input: two beats, gaps enabled, the draw
firing after beat 0. -/
theorem C7_witness :
    (∀ j c, j + 1 < (AXIS_Writer_cycles 16 1 true false 0 0 0 [10, 20] [] [0, 0]
        [true, true]).length →
      (AXIS_Writer_cycles 16 1 true false 0 0 0 [10, 20] [] [0, 0]
        [true, true])[j]? = some c → c.valid = false →
      1 ≤ j ∧
      (∃ cp, (AXIS_Writer_cycles 16 1 true false 0 0 0 [10, 20] [] [0, 0]
          [true, true])[j-1]? = some cp ∧ cp.valid = true ∧ cp.last = false) ∧
      (∃ cn, (AXIS_Writer_cycles 16 1 true false 0 0 0 [10, 20] [] [0, 0]
          [true, true])[j+1]? = some cn ∧ cn.valid = true)) ∧
    (∃ e, (AXIS_Writer_cycles 16 1 true false 0 0 0 [10, 20] [] [0, 0]
        [true, true]).getLast? = some e ∧ e.valid = false ∧ e.last = false) ∧
    ([10, 20] ≠ ([] : List Nat) →
      ∃ f1, (AXIS_Writer_cycles 16 1 true false 0 0 0 [10, 20] [] [0, 0]
          [true, true])[(AXIS_Writer_cycles 16 1 true false 0 0 0 [10, 20] [] [0, 0]
          [true, true]).length - 2]? = some f1 ∧ f1.valid = true ∧
        f1.last = true) :=
  C7_writer_gaps 16 1 true false 0 0 0 [10, 20] [] [0, 0] [true, true]
    (AXIS_Writer_cycles 16 1 true false 0 0 0 [10, 20] [] [0, 0] [true, true]) rfl

/-! ### Claim C6: serialization of concurrent AXI4-Lite accesses

`axilite.py` serializes concurrent `write()`/`read()` callers with the
per-channel `access_active` flag: a caller that finds it set spins on clock
edges; the check and the set happen with no intervening `yield`, so under
cocotb's cooperative scheduling they form one atomic step.  The handshake
is abstracted into phases: `waiting` (the spin loop), `addr` (valid
asserted until address/data acknowledged), `resp` (waiting for the
response), `closing` (response done, ready deasserted, one further edge),
`finished` (after `access_active = False`). -/

/-- Phase of one caller of `AXI_Lite_Writer.write` / `AXI_Lite_Reader.read`. -/
inductive LPhase where
  | waiting
  | addr
  | resp
  | closing
  | finished
  deriving DecidableEq

/-- One caller's cooperative step on (own phase, shared `access_active`
flag).  Waiting steps model edges on which the awaited signal is still
absent. -/
inductive CStep : LPhase × Bool → LPhase × Bool → Prop where
  | acquire : CStep (.waiting, false) (.addr, true)
  | spin : CStep (.waiting, true) (.waiting, true)
  | addrWait (l : Bool) : CStep (.addr, l) (.addr, l)
  | addrDone (l : Bool) : CStep (.addr, l) (.resp, l)
  | respWait (l : Bool) : CStep (.resp, l) (.resp, l)
  | respDone (l : Bool) : CStep (.resp, l) (.closing, l)
  | release (l : Bool) : CStep (.closing, l) (.finished, false)

/-- Shared channel state for two concurrent callers. -/
structure LState where
  lock : Bool
  a : LPhase
  b : LPhase
  deriving DecidableEq

/-- Cooperative interleaving: at each step exactly one caller advances. -/
def LStep (s s' : LState) : Prop :=
  (CStep (s.a, s.lock) (s'.a, s'.lock) ∧ s.b = s'.b) ∨
  (CStep (s.b, s.lock) (s'.b, s'.lock) ∧ s.a = s'.a)

/-- Both callers start in the spin loop with the lock free. -/
def initState : LState := ⟨false, .waiting, .waiting⟩

/-- States reachable from two concurrent calls. -/
def Reach (s : LState) : Prop := Relation.ReflTransGen LStep initState s

/-- A caller holds the channel while driving it (address, response or
closing phase). -/
def busy : LPhase → Bool
  | .addr => true
  | .resp => true
  | .closing => true
  | _ => false

/-- Number of callers currently holding the channel. -/
def busyCount (s : LState) : Nat :=
  (if busy s.a then 1 else 0) + (if busy s.b then 1 else 0)

/-- Lock invariant: at most one holder, and the lock is set exactly while
some caller holds the channel. -/
def LInv (s : LState) : Prop :=
  busyCount s ≤ 1 ∧ s.lock = (busy s.a || busy s.b)

theorem inv_step {s s' : LState} (h : LInv s) (hs : LStep s s') : LInv s' := by
  obtain ⟨l, pa, pb⟩ := s
  obtain ⟨l', pa', pb'⟩ := s'
  rcases hs with ⟨hc, hb⟩ | ⟨hc, ha⟩
  · simp only at hc hb
    subst hb
    cases hc <;> cases pb <;> simp_all [LInv, busy, busyCount]
  · simp only at hc ha
    subst ha
    cases hc <;> cases pa <;> simp_all [LInv, busy, busyCount]

theorem inv_reach {s : LState} (h : Reach s) : LInv s := by
  induction h with
  | refl => unfold LInv; decide
  | tail hprev hstep ih => exact inv_step ih hstep

/-- C6.  At every reachable state and across every step the channel lock
has at most one holder, and a caller's address phase (assertion of
address-valid) begins only on an acquire step, which requires the lock to
be free — hence only when the other caller is not in its address, response
or closing phase, i.e. not before the other caller's response phase has
completed and the lock was released one edge later. -/
theorem C6_lock_serializes (s s' : LState) (hr : Reach s) (hs : LStep s s') :
    busyCount s ≤ 1 ∧ busyCount s' ≤ 1 ∧
    (s.b = .waiting → s'.b = .addr → busy s.a = false) ∧
    (s.a = .waiting → s'.a = .addr → busy s.b = false) := by
  have h1 := inv_reach hr
  have h2 := inv_step h1 hs
  refine ⟨h1.1, h2.1, ?_, ?_⟩
  · intro hbw hba
    obtain ⟨l, pa, pb⟩ := s
    obtain ⟨l', pa', pb'⟩ := s'
    simp only at hbw hba ⊢
    subst hbw
    subst hba
    rcases hs with ⟨hc, hb⟩ | ⟨hc, ha⟩
    · simp at hb
    · simp only at hc
      cases hc
      have h3 := h1.2
      simp only [busy, Bool.or_false] at h3
      exact h3.symm
  · intro haw haa
    obtain ⟨l, pa, pb⟩ := s
    obtain ⟨l', pa', pb'⟩ := s'
    simp only at haw haa ⊢
    subst haw
    subst haa
    rcases hs with ⟨hc, hb⟩ | ⟨hc, ha⟩
    · simp only at hc
      cases hc
      have h3 := h1.2
      simp only [busy, Bool.false_or] at h3
      exact h3.symm
    · simp at ha

/-- C6 witness: from the initial state, caller A's acquire step. -/
theorem C6_witness :
    busyCount initState ≤ 1 ∧ busyCount ⟨true, .addr, .waiting⟩ ≤ 1 ∧
    (initState.b = .waiting → (⟨true, .addr, .waiting⟩ : LState).b = .addr →
      busy initState.a = false) ∧
    (initState.a = .waiting → (⟨true, .addr, .waiting⟩ : LState).a = .addr →
      busy initState.b = false) :=
  C6_lock_serializes initState ⟨true, .addr, .waiting⟩
    Relation.ReflTransGen.refl (Or.inl ⟨CStep.acquire, rfl⟩)

/-! ### CRC16 (crc.py) -/

/-- One bit-level round of `_crc16_initial`: conditionally xor the CCITT
polynomial when bit 15 of `crc ^ c` is set, then shift both. -/
def crc16_round (p : Nat × Nat) : Nat × Nat :=
  (if (p.1 ^^^ p.2) &&& 0x8000 ≠ 0 then (p.1 <<< 1) ^^^ 0x1021 else p.1 <<< 1,
   p.2 <<< 1)

/-- `_crc16_initial(c)`: eight rounds starting from `(0, c << 8)`. -/
def crc16_initial (c : Nat) : Nat :=
  (crc16_round^[8] (0, c <<< 8)).1

/-- `_crc16_tab`. -/
def crc16_tab : List Nat := (List.range 256).map crc16_initial

/-- `_crc16_update(crc, c)`. -/
def crc16_update (crc c : Nat) : Nat :=
  ((crc <<< 8) ^^^ crc16_tab.getD (((crc >>> 8) ^^^ (0xffff &&& c)) &&& 0xff) 0)
    &&& 0xffff

/-- `crc16(i)`: fold the update over the big-endian byte serialization of
the key (`'%x' % i`, left-padded with one `'0'` when of odd length,
hex-decoded). -/
def crc16 (i : Nat) : Nat :=
  ((hexDecode (nibsOfNat i (2 * ((pyHexLen i + 1) / 2)))).getD []).foldl
    crc16_update 0

theorem crc16_eq_bytes (i : Nat) :
    crc16 i = (bytesOfNat i ((pyHexLen i + 1) / 2)).foldl crc16_update 0 := by
  unfold crc16
  rw [hexDecode_nibsOfNat]
  rfl

/-! #### GF(2)-linearity of the CRC -/

theorem shiftLeft_xor_distrib (x y n : Nat) :
    (x ^^^ y) <<< n = (x <<< n) ^^^ (y <<< n) := by
  apply Nat.eq_of_testBit_eq
  intro i
  simp only [Nat.testBit_shiftLeft, Nat.testBit_xor, Bool.and_xor_distrib_left]

theorem shiftRight_xor_distrib (x y n : Nat) :
    (x ^^^ y) >>> n = (x >>> n) ^^^ (y >>> n) := by
  apply Nat.eq_of_testBit_eq
  intro i
  simp only [Nat.testBit_shiftRight, Nat.testBit_xor]

theorem and_xor_distrib (x y m : Nat) :
    (x ^^^ y) &&& m = (x &&& m) ^^^ (y &&& m) := by
  apply Nat.eq_of_testBit_eq
  intro i
  simp only [Nat.testBit_and, Nat.testBit_xor, Bool.and_xor_distrib_right]

theorem and_xor_distrib_left (m x y : Nat) :
    m &&& (x ^^^ y) = (m &&& x) ^^^ (m &&& y) := by
  apply Nat.eq_of_testBit_eq
  intro i
  simp only [Nat.testBit_and, Nat.testBit_xor, Bool.and_xor_distrib_left]

theorem and_two_pow_sub_one_eq_mod (x n : Nat) : x &&& (2 ^ n - 1) = x % 2 ^ n := by
  apply Nat.eq_of_testBit_eq
  intro i
  simp only [Nat.testBit_and, Nat.testBit_two_pow_sub_one, Nat.testBit_mod_two_pow]
  cases x.testBit i <;> cases decide (i < n) <;> rfl

theorem and255_eq_mod (x : Nat) : x &&& 255 = x % 256 := by
  have h := and_two_pow_sub_one_eq_mod x 8
  norm_num at h
  exact h

theorem and65535_eq_mod (x : Nat) : x &&& 65535 = x % 65536 := by
  have h := and_two_pow_sub_one_eq_mod x 16
  norm_num at h
  exact h

theorem xor_xor_comm (a b c d : Nat) :
    (a ^^^ b) ^^^ (c ^^^ d) = (a ^^^ c) ^^^ (b ^^^ d) := by
  apply Nat.eq_of_testBit_eq
  intro i
  simp only [Nat.testBit_xor]
  cases a.testBit i <;> cases b.testBit i <;> cases c.testBit i <;>
    cases d.testBit i <;> rfl

theorem testBit15_of_and (x : Nat) : (x &&& 0x8000 ≠ 0) ↔ x.testBit 15 = true := by
  rw [show (0x8000 : Nat) = 2 ^ 15 from by norm_num, Nat.and_two_pow]
  cases h : x.testBit 15 <;> simp [h]

theorem ite_xor_split (c : Nat) (b : Prop) [Decidable b] :
    (if b then (c <<< 1) ^^^ 0x1021 else c <<< 1) =
      (c <<< 1) ^^^ (if b then 0x1021 else 0) := by
  split <;> simp

theorem ite_bool_xor (b1 b2 : Bool) (P : Nat) :
    (if (b1 ^^ b2) = true then P else 0) =
      (if b1 = true then P else 0) ^^^ (if b2 = true then P else 0) := by
  cases b1 <;> cases b2 <;> simp

theorem crc16_round_lin (p q : Nat × Nat) :
    crc16_round (p.1 ^^^ q.1, p.2 ^^^ q.2) =
      ((crc16_round p).1 ^^^ (crc16_round q).1,
       (crc16_round p).2 ^^^ (crc16_round q).2) := by
  obtain ⟨p1, p2⟩ := p
  obtain ⟨q1, q2⟩ := q
  have hcond : ∀ x y : Nat,
      ((x ^^^ y) &&& 0x8000 ≠ 0) ↔ ((x.testBit 15 ^^ y.testBit 15) = true) := by
    intro x y
    rw [testBit15_of_and, Nat.testBit_xor]
  unfold crc16_round
  simp only
  rw [Prod.mk.injEq]
  refine ⟨?_, shiftLeft_xor_distrib p2 q2 1⟩
  rw [ite_xor_split, ite_xor_split, ite_xor_split]
  rw [if_congr (hcond (p1 ^^^ q1) (p2 ^^^ q2)) rfl rfl,
    if_congr (hcond p1 p2) rfl rfl, if_congr (hcond q1 q2) rfl rfl]
  rw [shiftLeft_xor_distrib p1 q1 1, xor_xor_comm]
  congr 1
  have hx : (((p1 ^^^ q1).testBit 15 ^^ (p2 ^^^ q2).testBit 15)) =
      ((p1.testBit 15 ^^ p2.testBit 15) ^^ (q1.testBit 15 ^^ q2.testBit 15)) := by
    simp only [Nat.testBit_xor]
    cases p1.testBit 15 <;> cases q1.testBit 15 <;> cases p2.testBit 15 <;>
      cases q2.testBit 15 <;> rfl
  rw [hx, ite_bool_xor]

theorem crc16_iter_lin (n : Nat) (p q : Nat × Nat) :
    crc16_round^[n] (p.1 ^^^ q.1, p.2 ^^^ q.2) =
      ((crc16_round^[n] p).1 ^^^ (crc16_round^[n] q).1,
       (crc16_round^[n] p).2 ^^^ (crc16_round^[n] q).2) := by
  induction n generalizing p q with
  | zero => simp
  | succ k ih =>
    rw [Function.iterate_succ_apply, Function.iterate_succ_apply,
      Function.iterate_succ_apply, crc16_round_lin p q]
    exact ih (crc16_round p) (crc16_round q)

theorem crc16_initial_xor (a b : Nat) :
    crc16_initial (a ^^^ b) = crc16_initial a ^^^ crc16_initial b := by
  unfold crc16_initial
  have h1 : (a ^^^ b) <<< 8 = (a <<< 8) ^^^ (b <<< 8) := shiftLeft_xor_distrib a b 8
  have h2 : ((0 : Nat), (a <<< 8) ^^^ (b <<< 8)) =
      (((0 : Nat), a <<< 8).1 ^^^ ((0 : Nat), b <<< 8).1,
       ((0 : Nat), a <<< 8).2 ^^^ ((0 : Nat), b <<< 8).2) := by
    simp
  rw [h1, h2, crc16_iter_lin 8 (0, a <<< 8) (0, b <<< 8)]

theorem crc16_tab_getD {i : Nat} (h : i < 256) :
    crc16_tab.getD i 0 = crc16_initial i := by
  unfold crc16_tab
  rw [List.getD_eq_getElem?_getD]
  simp [List.getElem?_map, List.getElem?_range, h]

theorem crc16_update_xor (s1 s2 c1 c2 : Nat) :
    crc16_update (s1 ^^^ s2) (c1 ^^^ c2) =
      crc16_update s1 c1 ^^^ crc16_update s2 c2 := by
  unfold crc16_update
  have h1 : ((s1 >>> 8) ^^^ (0xffff &&& c1)) &&& 0xff < 256 :=
    lt_of_le_of_lt Nat.and_le_right (by norm_num)
  have h2 : ((s2 >>> 8) ^^^ (0xffff &&& c2)) &&& 0xff < 256 :=
    lt_of_le_of_lt Nat.and_le_right (by norm_num)
  have hidx : (((s1 ^^^ s2) >>> 8) ^^^ (0xffff &&& (c1 ^^^ c2))) &&& 0xff =
      (((s1 >>> 8) ^^^ (0xffff &&& c1)) &&& 0xff) ^^^
      (((s2 >>> 8) ^^^ (0xffff &&& c2)) &&& 0xff) := by
    rw [shiftRight_xor_distrib, and_xor_distrib_left, xor_xor_comm,
      and_xor_distrib]
  have hxlt : (((s1 >>> 8) ^^^ (0xffff &&& c1)) &&& 0xff) ^^^
      (((s2 >>> 8) ^^^ (0xffff &&& c2)) &&& 0xff) < 256 := by
    have h1p : ((s1 >>> 8) ^^^ (0xffff &&& c1)) &&& 0xff < 2 ^ 8 := by simpa using h1
    have h2p : ((s2 >>> 8) ^^^ (0xffff &&& c2)) &&& 0xff < 2 ^ 8 := by simpa using h2
    simpa using Nat.xor_lt_two_pow h1p h2p
  rw [hidx, crc16_tab_getD hxlt, crc16_tab_getD h1, crc16_tab_getD h2,
    crc16_initial_xor, shiftLeft_xor_distrib, xor_xor_comm, and_xor_distrib]

theorem crcFold_xor :
    ∀ (l1 l2 : List Nat) (s1 s2 : Nat), l1.length = l2.length →
      (List.zipWith (fun a b => a ^^^ b) l1 l2).foldl crc16_update (s1 ^^^ s2) =
        l1.foldl crc16_update s1 ^^^ l2.foldl crc16_update s2 := by
  intro l1
  induction l1 with
  | nil =>
    intro l2 s1 s2 h
    have h2 : l2 = [] := List.eq_nil_of_length_eq_zero h.symm
    subst h2
    simp
  | cons x t ih =>
    intro l2 s1 s2 h
    rcases l2 with _ | ⟨y, t2⟩
    · simp at h
    · simp only [List.zipWith_cons_cons, List.foldl_cons, crc16_update_xor]
      exact ih t2 _ _ (by simpa using h)

theorem div_pow2_xor (x y m : Nat) : (x ^^^ y) / 2 ^ m = x / 2 ^ m ^^^ y / 2 ^ m := by
  rw [← Nat.shiftRight_eq_div_pow, ← Nat.shiftRight_eq_div_pow,
    ← Nat.shiftRight_eq_div_pow]
  exact shiftRight_xor_distrib x y m

theorem mod256_xor (x y : Nat) : (x ^^^ y) % 256 = x % 256 ^^^ y % 256 := by
  rw [← and255_eq_mod, ← and255_eq_mod, ← and255_eq_mod]
  exact and_xor_distrib x y 255

theorem pow256_two (k : Nat) : (256 : Nat) ^ k = 2 ^ (8 * k) := by
  rw [Nat.pow_mul]

theorem bytesOfNat_xor (x y : Nat) :
    ∀ n, bytesOfNat (x ^^^ y) n =
      List.zipWith (fun a b => a ^^^ b) (bytesOfNat x n) (bytesOfNat y n) := by
  intro n
  induction n with
  | zero => rfl
  | succ k ih =>
    rw [bytesOfNat, bytesOfNat, bytesOfNat, ih, List.zipWith_cons_cons]
    congr 1
    rw [pow256_two, div_pow2_xor, mod256_xor]

/-! #### Padding invariance and single-bit messages -/

theorem crc16_update_zero_zero : crc16_update 0 0 = 0 := by decide

theorem crc16_update_bound (s c : Nat) : crc16_update s c < 65536 :=
  lt_of_le_of_lt Nat.and_le_right (by norm_num)

theorem k_lt_pow_byteLen (k : Nat) : k < 256 ^ ((pyHexLen k + 1) / 2) := by
  have h1 := lt_pow_pyHexLen k
  have h2 : 16 ^ pyHexLen k ≤ 16 ^ (2 * ((pyHexLen k + 1) / 2)) :=
    Nat.pow_le_pow_right (by norm_num) (by omega)
  rw [pow256_eq]
  omega

theorem crcBytes_pad (k : Nat) :
    ∀ N, (pyHexLen k + 1) / 2 ≤ N →
      (bytesOfNat k N).foldl crc16_update 0 = crc16 k := by
  intro N
  induction N with
  | zero =>
    intro h
    have := pyHexLen_pos k
    omega
  | succ M ih =>
    intro h
    rcases Nat.lt_or_ge M ((pyHexLen k + 1) / 2) with hlt | hge
    · have hEq : (pyHexLen k + 1) / 2 = M + 1 := by omega
      rw [crc16_eq_bytes, hEq]
    · have hk : k < 256 ^ M :=
        lt_of_lt_of_le (k_lt_pow_byteLen k)
          (Nat.pow_le_pow_right (by norm_num) hge)
      rw [bytesOfNat]
      have h0 : k / 256 ^ M % 256 = 0 := by
        rw [Nat.div_eq_of_lt hk]
      rw [h0, List.foldl_cons, crc16_update_zero_zero]
      exact ih hge

theorem tab_lowbyte_ball : ∀ h < 256, crc16_initial h % 256 = 0 → h = 0 := by decide

theorem update_zero_eq {s : Nat} (hs : s < 65536) :
    crc16_update s 0 = (256 * s ^^^ crc16_initial (s / 256)) % 65536 := by
  unfold crc16_update
  have hsr : s >>> 8 = s / 256 := by
    rw [Nat.shiftRight_eq_div_pow]
  have hlt : s / 256 < 256 := by omega
  rw [Nat.and_zero, Nat.xor_zero, hsr, and255_eq_mod, Nat.mod_eq_of_lt hlt,
    crc16_tab_getD hlt, Nat.shiftLeft_eq, and65535_eq_mod]
  norm_num [Nat.mul_comm]

theorem crc16_update_zero_ne {s : Nat} (hs : s < 65536) (hnz : s ≠ 0) :
    crc16_update s 0 ≠ 0 := by
  intro h0
  rw [update_zero_eq hs] at h0
  have hmod : (256 * s ^^^ crc16_initial (s / 256)) % 256 = 0 := by
    have hd : (256 : Nat) ∣ 65536 := by norm_num
    calc (256 * s ^^^ crc16_initial (s / 256)) % 256
        = (256 * s ^^^ crc16_initial (s / 256)) % 65536 % 256 :=
          (Nat.mod_mod_of_dvd _ hd).symm
      _ = 0 := by rw [h0]
  rw [mod256_xor, Nat.mul_mod_right, Nat.zero_xor] at hmod
  have hs256 : s / 256 < 256 := by omega
  have hz := tab_lowbyte_ball (s / 256) hs256 hmod
  rw [hz] at h0
  have hinit0 : crc16_initial 0 = 0 := by decide
  rw [hinit0, Nat.xor_zero] at h0
  have hdvd : (65536 : Nat) ∣ 256 * s := Nat.dvd_of_mod_eq_zero h0
  have hdvd2 : (256 : Nat) ∣ s := by
    have h65536 : (65536 : Nat) = 256 * 256 := by norm_num
    rw [h65536] at hdvd
    exact (Nat.mul_dvd_mul_iff_left (by norm_num : (0:Nat) < 256)).mp hdvd
  have hslt : s < 256 := by omega
  rcases Nat.eq_zero_or_pos s with rfl | hpos
  · exact hnz rfl
  · exact absurd (Nat.le_of_dvd hpos hdvd2) (by omega)

theorem fold_zeros_ne (n : Nat) :
    ∀ s, s < 65536 → s ≠ 0 →
      (List.replicate n 0).foldl crc16_update s ≠ 0 := by
  induction n with
  | zero => intro s _ hnz; simpa using hnz
  | succ k ih =>
    intro s hs hnz
    rw [List.replicate_succ, List.foldl_cons]
    exact ih (crc16_update s 0) (crc16_update_bound s 0)
      (crc16_update_zero_ne hs hnz)

theorem bytesOfNat_pow_small (j : Nat) :
    ∀ M, M ≤ j / 8 → bytesOfNat (2 ^ j) M = List.replicate M 0 := by
  intro M
  induction M with
  | zero => intro _; rfl
  | succ K ih =>
    intro hM
    rw [bytesOfNat, ih (by omega), List.replicate_succ]
    congr 1
    have h8 : 8 * K + 8 ≤ j := by omega
    rw [pow256_two, Nat.pow_div (by omega) (by norm_num)]
    have hsplit : 2 ^ (j - 8 * K) = 256 * 2 ^ (j - 8 * K - 8) := by
      rw [show (256 : Nat) = 2 ^ 8 from by norm_num, ← Nat.pow_add]
      congr 1
      omega
    rw [hsplit, Nat.mul_mod_right]

theorem bytesOfNat_pow_at (j : Nat) :
    bytesOfNat (2 ^ j) (j / 8 + 1) =
      2 ^ (j % 8) :: List.replicate (j / 8) 0 := by
  rw [bytesOfNat, bytesOfNat_pow_small j (j / 8) le_rfl]
  congr 1
  have h8 : 8 * (j / 8) ≤ j := by omega
  rw [pow256_two, Nat.pow_div h8 (by norm_num)]
  have hEq : j - 8 * (j / 8) = j % 8 := by omega
  rw [hEq]
  exact Nat.mod_eq_of_lt (by
    calc 2 ^ (j % 8) ≤ 2 ^ 7 := Nat.pow_le_pow_right (by norm_num) (by omega)
      _ < 256 := by norm_num)

theorem update_zero_pow {r : Nat} (hr : r < 8) :
    crc16_update 0 (2 ^ r) = crc16_initial (2 ^ r) % 65536 := by
  unfold crc16_update
  have hlt8 : 2 ^ r < 256 := by
    calc 2 ^ r ≤ 2 ^ 7 := Nat.pow_le_pow_right (by norm_num) (by omega)
      _ < 256 := by norm_num
  have h16 : 2 ^ r < 65536 := by omega
  have hin : 65535 &&& 2 ^ r = 2 ^ r := by
    rw [Nat.and_comm, and65535_eq_mod, Nat.mod_eq_of_lt h16]
  simp only [Nat.zero_shiftLeft, Nat.zero_shiftRight, Nat.zero_xor]
  rw [hin, and255_eq_mod, Nat.mod_eq_of_lt hlt8, crc16_tab_getD hlt8,
    and65535_eq_mod]

theorem crc16_initial_pow_ne {r : Nat} (hr : r < 8) :
    crc16_initial (2 ^ r) % 65536 ≠ 0 := by
  intro h0
  have hlt8 : 2 ^ r < 256 := by
    calc 2 ^ r ≤ 2 ^ 7 := Nat.pow_le_pow_right (by norm_num) (by omega)
      _ < 256 := by norm_num
  have hmod : crc16_initial (2 ^ r) % 256 = 0 := by
    have hd : (256 : Nat) ∣ 65536 := by norm_num
    calc crc16_initial (2 ^ r) % 256
        = crc16_initial (2 ^ r) % 65536 % 256 := (Nat.mod_mod_of_dvd _ hd).symm
      _ = 0 := by rw [h0]
  have := tab_lowbyte_ball (2 ^ r) hlt8 hmod
  exact absurd this (Nat.pos_iff_ne_zero.mp (Nat.pos_pow_of_pos r (by norm_num)))

theorem crcfold_pow_ne (j : Nat) :
    ∀ N, j / 8 + 1 ≤ N →
      (bytesOfNat (2 ^ j) N).foldl crc16_update 0 ≠ 0 := by
  intro N
  induction N with
  | zero => intro h; omega
  | succ M ih =>
    intro h
    rcases Nat.lt_or_ge M (j / 8 + 1) with hlt | hge
    · have hEq : M + 1 = j / 8 + 1 := by omega
      rw [hEq, bytesOfNat_pow_at, List.foldl_cons,
        update_zero_pow (Nat.mod_lt j (by norm_num))]
      exact fold_zeros_ne (j / 8) _ (Nat.mod_lt _ (by norm_num))
        (crc16_initial_pow_ne (Nat.mod_lt j (by norm_num)))
    · have hj : 2 ^ j < 256 ^ M := by
        rw [pow256_two]
        exact Nat.pow_lt_pow_right (by norm_num) (by omega)
      rw [bytesOfNat, Nat.div_eq_of_lt hj]
      rw [show (0 : Nat) % 256 = 0 from rfl, List.foldl_cons,
        crc16_update_zero_zero]
      exact ih hge

/-! ### Claim C8: crc16 determinism and single-bit avalanche -/

/-- C8.  `crc16` is a deterministic pure function of its key, and flipping
any single bit of any key changes the CRC (by GF(2)-linearity of the table
CRC and the fact that no single-bit message has CRC zero). -/
theorem C8_crc16 :
    (∀ k1 k2 : Nat, k1 = k2 → crc16 k1 = crc16 k2) ∧
    (∀ k j : Nat, (crc16 (k ^^^ 2 ^ j) == crc16 k) = false) := by
  constructor
  · intro k1 k2 h
    rw [h]
  · intro k j
    apply beq_eq_false_iff_ne.mpr
    have hN1 : (pyHexLen (k ^^^ 2 ^ j) + 1) / 2 ≤
        max ((pyHexLen k + 1) / 2)
          (max ((pyHexLen (k ^^^ 2 ^ j) + 1) / 2) (j / 8 + 1)) := by
      have := le_max_left ((pyHexLen (k ^^^ 2 ^ j) + 1) / 2) (j / 8 + 1)
      omega
    have hN2 : (pyHexLen k + 1) / 2 ≤
        max ((pyHexLen k + 1) / 2)
          (max ((pyHexLen (k ^^^ 2 ^ j) + 1) / 2) (j / 8 + 1)) := le_max_left _ _
    have hN3 : j / 8 + 1 ≤
        max ((pyHexLen k + 1) / 2)
          (max ((pyHexLen (k ^^^ 2 ^ j) + 1) / 2) (j / 8 + 1)) := by
      have := le_max_right ((pyHexLen (k ^^^ 2 ^ j) + 1) / 2) (j / 8 + 1)
      omega
    set N := max ((pyHexLen k + 1) / 2)
      (max ((pyHexLen (k ^^^ 2 ^ j) + 1) / 2) (j / 8 + 1)) with hNdef
    have e1 : crc16 (k ^^^ 2 ^ j) =
        (bytesOfNat (k ^^^ 2 ^ j) N).foldl crc16_update 0 :=
      (crcBytes_pad (k ^^^ 2 ^ j) N hN1).symm
    have e2 : crc16 k = (bytesOfNat k N).foldl crc16_update 0 :=
      (crcBytes_pad k N hN2).symm
    have e3 : (bytesOfNat (k ^^^ 2 ^ j) N).foldl crc16_update 0 =
        (bytesOfNat k N).foldl crc16_update 0 ^^^
        (bytesOfNat (2 ^ j) N).foldl crc16_update 0 := by
      rw [bytesOfNat_xor]
      have h00 : (0 : Nat) = 0 ^^^ 0 := rfl
      rw [h00]
      exact crcFold_xor _ _ 0 0 (by simp)
    have hC : (bytesOfNat (2 ^ j) N).foldl crc16_update 0 ≠ 0 :=
      crcfold_pow_ne j N hN3
    rw [e1, e2, e3]
    intro hEq
    apply hC
    have hcancel : (bytesOfNat (2 ^ j) N).foldl crc16_update 0 =
        (bytesOfNat k N).foldl crc16_update 0 ^^^
        ((bytesOfNat k N).foldl crc16_update 0 ^^^
          (bytesOfNat (2 ^ j) N).foldl crc16_update 0) := by
      rw [← Nat.xor_assoc, Nat.xor_self, Nat.zero_xor]
    rw [hcancel, hEq, Nat.xor_self]

/-- C8 witness at concrete keys. -/
theorem C8_witness :
    crc16 3 = crc16 3 ∧ (crc16 (5 ^^^ 2 ^ 3) == crc16 5) = false :=
  ⟨C8_crc16.1 3 3 rfl, C8_crc16.2 5 3⟩

end Cocotb
